import Mathlib

/-
Verification development for the push-provider discovery pipeline.

The crawler (crawl_service_workers.py) is embedded as a state machine: the
shared mutable state guarded by the lock becomes an explicit `CrawlState`,
and the arbitrary completion order of the worker pool becomes an explicit
list of (url, result) completions that is a permutation of the outstanding
work set.  The similarity stage (compare_ssdeep.py) and the detector
(detect_push_providers.py) are pure and are embedded directly.
-/

namespace PushProviders

/-! ## Crawl index (crawl_service_workers.py)

The persisted index is a JSON object mapping each URL to an integer slot or
null.  Python dict semantics: insertion order is preserved, assigning to an
existing key updates it in place, assigning to a fresh key appends. -/

/-- Crawl index: URL mapped to `some slot` (success) or `none` (FAILED). -/
abbrev Index := List (String × Option Nat)

/-- Dict key lookup: first (and, for well-formed dicts, only) binding of `u`. -/
def indexLookup : Index → String → Option (Option Nat)
  | [], _ => none
  | (k, v) :: rest, u => if k = u then some v else indexLookup rest u

/-- Dict assignment `crawled_index[u] = v`: update in place, or append when fresh. -/
def indexInsert : Index → String → Option Nat → Index
  | [], u, v => [(u, v)]
  | (k, w) :: rest, u, v =>
      if k = u then (k, v) :: rest else (k, w) :: indexInsert rest u v

/-- Membership test `u in crawled_index` (key membership). -/
def containsKey (idx : Index) (u : String) : Bool :=
  (indexLookup idx u).isSome

/-- Multiset of slot values recorded in the index (the non-null values). -/
def slots (idx : Index) : List Nat :=
  idx.filterMap Prod.snd

/-- Count of successfully fetched URLs, as computed on line 33:
`len([k for k in crawled_index if crawled_index[k] is not None])`. -/
def countNonNull (idx : Index) : Nat :=
  (slots idx).length

/-- Serialized form written by `json.dump(crawled_index, f, indent=2)`:
one line per entry, two-space indent. -/
def serializeEntry (p : String × Option Nat) : String :=
  "  \"" ++ p.1 ++ "\": " ++ (match p.2 with | none => "null" | some n => toString n)

/-- Separator-joined concatenation of lines, as `json.dump` lays entries out. -/
def joinSep (sep : String) : List String → String
  | [] => ""
  | [x] => x
  | x :: y :: rest => x ++ sep ++ joinSep sep (y :: rest)

/-- Serialization of the whole index (the file content produced by one dump). -/
def serializeIndex (idx : Index) : String :=
  match idx with
  | [] => "\x7b\x7d"
  | _ => "\x7b\n" ++ joinSep ",\n" (idx.map serializeEntry) ++ "\n\x7d"

/-! ## Concurrent crawler (download_with_record) -/

/-- Outcome of one worker's fetch, as produced by `fetch_url` (or by the
exception handler on line 69, which converts any exception to FAIL). -/
inductive CrawlResult where
  | success (content : String)
  | alreadyCrawled
  | fail
deriving DecidableEq, Repr

/-- Test for the SUCCESS outcome. -/
def isSuccess : CrawlResult → Bool
  | .success _ => true
  | _ => false

/-- Shared state guarded by the lock in `download_with_record`: the in-memory
index, the running slot counter, the slot files written so far, and the
content of the persisted index file after the most recent dump. -/
structure CrawlState where
  index : Index
  count : Nat
  files : List (Nat × String)
  persisted : String
deriving DecidableEq, Repr

/-- Critical section `process_result` (lines 40-56): on SUCCESS write the
content to slot file `count`, record `url -> count`, increment the counter and
dump the index; on FAIL record `url -> null` and dump; ALREADY_CRAWLED is a
no-op. -/
def processResult (s : CrawlState) (url : String) (r : CrawlResult) : CrawlState :=
  match r with
  | .alreadyCrawled => s
  | .success content =>
      let idx := indexInsert s.index url (some s.count)
      { index := idx
        count := s.count + 1
        files := s.files ++ [(s.count, content)]
        persisted := serializeIndex idx }
  | .fail =>
      let idx := indexInsert s.index url none
      { index := idx
        count := s.count
        files := s.files
        persisted := serializeIndex idx }

/-- Drain of the `as_completed` loop: process each completed fetch in the
order the completions arrive. -/
def runList (s : CrawlState) : List (String × CrawlResult) → CrawlState
  | [] => s
  | (u, r) :: rest => runList (processResult s u r) rest

/-- Outstanding work set (line 34): `[u for u in urls if u not in crawled_index]`. -/
def urlsToFetch (index : Index) (urls : List String) : List String :=
  urls.filter (fun u => !(containsKey index u))

/-- State at the top of `download_with_record`: the loaded index, the count
recomputed from its non-null entries (line 33), no files written yet this
run, and the index file still holding the loaded serialization. -/
def initState (index0 : Index) : CrawlState :=
  { index := index0
    count := countNonNull index0
    files := []
    persisted := serializeIndex index0 }

/-- The crawler `download_with_record`, given the loaded index and the list of
completions delivered by the pool (one per outstanding URL, in arbitrary
completion order).  Returns the final state and the returned `count`. -/
def download_with_record (index0 : Index) (completions : List (String × CrawlResult)) :
    CrawlState × Nat :=
  let s := runList (initState index0) completions
  (s, s.count)

/-- Guard at the top of `fetch_url` (lines 74-76): a URL already present in
the index yields ALREADY_CRAWLED without any network activity; otherwise the
network outcome (success with content, or failure) decides. -/
def fetch_url (index : Index) (u : String) (network : String → CrawlResult) : CrawlResult :=
  if containsKey index u then CrawlResult.alreadyCrawled else network u

/-- Valid completion list for a run: the completed URLs are exactly the
outstanding work set in some order, and no worker reports ALREADY_CRAWLED
(outstanding URLs are not in the index when submitted, per line 54's comment). -/
def ValidRun (index0 : Index) (urls : List String)
    (completions : List (String × CrawlResult)) : Prop :=
  List.Perm (completions.map Prod.fst) (urlsToFetch index0 urls) ∧
    ∀ p ∈ completions, p.2 ≠ CrawlResult.alreadyCrawled

/-- File contents observable if the process dies while one persist of the
index is in progress (lines 55-56): `open(index_path, "w")` truncates the
existing file to empty first, and only afterwards does `json.dump` write the
new serialization, so a crash can expose the old content, the empty file, or
the new content. -/
def persistCrashStates (oldContent : String) (idx : Index) : List String :=
  [oldContent, "", serializeIndex idx]

/-! ## Similarity comparison and clustering (compare_ssdeep.py)

The ssdeep digest is opaque and `ssdeep.compare` is an external C function;
both are parameters of the embedding: a digest is a `String`, and the score
function `cmp : String → String → Nat` is passed in.  Python dicts are again
insertion-ordered association lists with unique keys. -/

/-- Association-list lookup with a default, modelling `d[k]` on a present key
(and `d.get(k, default)` on a possibly absent one). -/
def alookupD {α : Type} : List (String × α) → String → α → α
  | [], _, d => d
  | (k, v) :: rest, u, d => if k = u then v else alookupD rest u d

/-- All 2-element combinations in list order: `itertools.combinations(paths, 2)`. -/
def combos {α : Type} : List α → List (α × α)
  | [] => []
  | x :: xs => xs.map (fun y => (x, y)) ++ combos xs

/-- One retained comparison record emitted by `compare_hashes`. -/
structure Pair where
  file_a : String
  file_b : String
  score : Nat
  urls_a : List String
  urls_b : List String
deriving DecidableEq, Repr

/-- Function `compare_hashes` (lines 94-121): score every unordered pair of
hashed paths and keep those with score at or above the threshold. -/
def compare_hashes (cmp : String → String → Nat) (path_to_hash : List (String × String))
    (path_to_urls : List (String × List String)) (threshold : Nat) : List Pair :=
  (combos (path_to_hash.map Prod.fst)).filterMap fun ab =>
    let score := cmp (alookupD path_to_hash ab.1 "") (alookupD path_to_hash ab.2 "")
    if threshold ≤ score then
      some { file_a := ab.1
             file_b := ab.2
             score := score
             urls_a := alookupD path_to_urls ab.1 []
             urls_b := alookupD path_to_urls ab.2 [] }
    else none

/-- Union-find parent map (a Python dict from path to path). -/
abbrev Parent := List (String × String)

/-- Parent-map lookup, `parent[x]` when present. -/
def plookup : Parent → String → Option String
  | [], _ => none
  | (k, v) :: rest, u => if k = u then some v else plookup rest u

/-- Parent-map assignment `parent[x] = v` (update in place or append). -/
def pset : Parent → String → String → Parent
  | [], u, v => [(u, v)]
  | (k, w) :: rest, u, v =>
      if k = u then (k, v) :: rest else (k, w) :: pset rest u v

/-- The `while parent[x] != x` walk inside `find`, collecting the visited
nodes for path compression.  The walk is bounded by a budget list; the unions
below never create a cycle, so a parent chain never has more hops than the
map has entries and the whole map is always a sufficient budget. -/
def findChase (budget : List (String × String)) (p : Parent) (x : String)
    (stack : List String) : String × List String :=
  match budget with
  | [] => (x, stack)
  | _ :: budget' =>
      match plookup p x with
      | none => (x, stack)
      | some px => if px = x then (x, stack) else findChase budget' p px (stack ++ [x])

/-- Function `find` (lines 131-142): insert a fresh node as its own parent,
walk to the root, then point every visited node at the root (path
compression).  Returns the root and the updated parent map. -/
def find (p : Parent) (x : String) : String × Parent :=
  let p1 := if (plookup p x).isSome then p else pset p x x
  let rs := findChase p1 p1 x []
  (rs.1, rs.2.foldl (fun q n => pset q n rs.1) p1)

/-- Function `union` (lines 144-147): merge the two roots when they differ. -/
def union (p : Parent) (x y : String) : Parent :=
  let r1 := find p x
  let r2 := find r1.2 y
  if r1.1 = r2.1 then r2.2 else pset r2.2 r1.1 r2.1

/-- Append `v` to the list stored at key `r`, creating `r -> []` first when
absent — the `roots` accumulation on lines 152-157. -/
def rootsAdd (roots : List (String × List String)) (r v : String) :
    List (String × List String) :=
  match roots with
  | [] => [(r, [v])]
  | (k, vs) :: rest => if k = r then (k, vs ++ [v]) :: rest else (k, vs) :: rootsAdd rest r v

/-- Code-point comparison of strings, lexicographic on the character lists:
the order Python `sorted` uses on `str`. -/
def lexLe : List Char → List Char → Bool
  | [], _ => true
  | _ :: _, [] => false
  | a :: as, b :: bs =>
      if a.toNat = b.toNat then lexLe as bs else Nat.blt a.toNat b.toNat

/-- Propositional form of the code-point order on strings. -/
def strLe (x y : String) : Prop :=
  lexLe x.toList y.toList = true

instance : DecidableRel strLe :=
  fun x y => instDecidableEqBool (lexLe x.toList y.toList) true

/-- Python `sorted` on path strings (lexicographic, stable). -/
def sortedStr (l : List String) : List String :=
  List.insertionSort strLe l

/-- Order-preserving de-duplication, `list(dict.fromkeys(all_urls))`. -/
def dedupKeepFirst (l : List String) : List String :=
  l.foldl (fun acc u => if u ∈ acc then acc else acc ++ [u]) []

/-- One cluster record. -/
structure Cluster where
  representative : String
  members : List String
  urls : List String
deriving DecidableEq, Repr

/-- Loop on lines 152-157: for each node, find its root (compressing paths as
a side effect on the parent map) and append the node to its root's group. -/
def collectRootsGo (acc : List (String × List String)) (p : Parent) :
    List String → List (String × List String)
  | [] => acc
  | path :: rest =>
      let rp := find p path
      collectRootsGo (rootsAdd acc rp.1 path) rp.2 rest

/-- Group every node of the parent map under its root, in key order. -/
def collectRoots (parent : Parent) : List (String × List String) :=
  collectRootsGo [] parent (parent.map Prod.fst)

/-- Function `build_clusters` (lines 124-173): union the endpoints of every
retained pair, group nodes by root, and for each group emit the sorted member
list, its first element as representative, and the members' URLs de-duplicated
in first-occurrence order. -/
def build_clusters (pairs : List Pair) (path_to_urls : List (String × List String)) :
    List Cluster :=
  let parent := pairs.foldl (fun p pr => union p pr.file_a pr.file_b) []
  (collectRoots parent).map fun rm =>
    let members_sorted := sortedStr rm.2
    { representative := members_sorted.headD ""
      members := members_sorted
      urls := dedupKeepFirst (members_sorted.foldl
        (fun acc m => acc ++ alookupD path_to_urls m []) []) }

/-- Function `build_deduplicated_list` (lines 176-192): one representative per
cluster plus every hashed path that is in no cluster, sorted. -/
def build_deduplicated_list (path_to_hash : List (String × String))
    (clusters : List Cluster) : List String :=
  let in_cluster := clusters.foldl (fun acc c => acc ++ c.members) []
  let dedup := clusters.map (fun c => c.representative) ++
    (sortedStr (path_to_hash.map Prod.fst)).filter (fun p => !(List.elem p in_cluster))
  sortedStr dedup

/-! ## Push-relatedness detector (detect_push_providers.py) -/

/-- Leading-match test: the first list starts the second. -/
def listStarts {α : Type} [DecidableEq α] : List α → List α → Bool
  | [], _ => true
  | _ :: _, [] => false
  | a :: as, b :: bs => if a = b then listStarts as bs else false

/-- Contiguous-occurrence test of `needle` inside a list. -/
def listOccurs {α : Type} [DecidableEq α] (needle : List α) : List α → Bool
  | [] => needle.isEmpty
  | b :: bs => listStarts needle (b :: bs) || listOccurs needle bs

/-- Python substring test `needle in hay`. -/
def strContains (hay needle : String) : Bool :=
  listOccurs needle.toList hay.toList

/-- Python `content.lower()` (ASCII case folding, which covers every
character the signature strings use). -/
def strLower (s : String) : String :=
  String.mk (s.toList.map Char.toLower)

/-- Function `is_push_related` (lines 37-55), byte for byte: the content is
lowercased into `c`, then the signature substrings are tested against `c`. -/
def is_push_related (content : String) : Bool :=
  let c := strLower content
  if strContains c "addEventListener" && strContains c "push" then true
  else if strContains c "pushmanager" then true
  else if strContains c "pushsubscription" || strContains c "push subscription" then true
  else if strContains c "shownotification" then true
  else if strContains c "notificationclick" then true
  else if strContains c "pushevent" then true
  else false

/-! ## Code-point order lemmas -/

theorem lexLe_refl : ∀ x : List Char, lexLe x x = true
  | [] => rfl
  | a :: as => by simp [lexLe, lexLe_refl as]

theorem lexLe_total : ∀ x y : List Char, lexLe x y = true ∨ lexLe y x = true
  | [], _ => Or.inl rfl
  | _ :: _, [] => Or.inr rfl
  | a :: as, b :: bs => by
      by_cases h : a.toNat = b.toNat
      · simpa [lexLe, h] using lexLe_total as bs
      · simp only [lexLe, if_neg h, if_neg (fun hh => h (Eq.symm hh))]
        rcases Nat.lt_or_ge a.toNat b.toNat with h1 | h1
        · left
          simpa [Nat.blt_eq] using h1
        · right
          have h2 : b.toNat < a.toNat := Nat.lt_of_le_of_ne h1 (fun hh => h (Eq.symm hh))
          simpa [Nat.blt_eq] using h2

theorem lexLe_trans : ∀ x y z : List Char,
    lexLe x y = true → lexLe y z = true → lexLe x z = true
  | [], _, _ => fun _ _ => rfl
  | _ :: _, [], _ => by intro h1 _; simp [lexLe] at h1
  | _ :: _, _ :: _, [] => by intro _ h2; simp [lexLe] at h2
  | a :: as, b :: bs, c :: cs => by
      intro h1 h2
      simp only [lexLe] at h1 h2 ⊢
      by_cases hab : a.toNat = b.toNat
      · rw [if_pos hab] at h1
        by_cases hbc : b.toNat = c.toNat
        · rw [if_pos hbc] at h2
          rw [if_pos (hab.trans hbc)]
          exact lexLe_trans as bs cs h1 h2
        · rw [if_neg hbc] at h2
          have hb2 : b.toNat < c.toNat := by simpa [Nat.blt_eq] using h2
          have hac : a.toNat ≠ c.toNat := by omega
          rw [if_neg hac]
          simp only [Nat.blt_eq]
          omega
      · rw [if_neg hab] at h1
        have ha1 : a.toNat < b.toNat := by simpa [Nat.blt_eq] using h1
        by_cases hbc : b.toNat = c.toNat
        · have hac : a.toNat ≠ c.toNat := by omega
          rw [if_neg hac]
          simp only [Nat.blt_eq]
          omega
        · rw [if_neg hbc] at h2
          have hb2 : b.toNat < c.toNat := by simpa [Nat.blt_eq] using h2
          have hac : a.toNat ≠ c.toNat := by omega
          rw [if_neg hac]
          simp only [Nat.blt_eq]
          omega

instance : IsTotal String strLe := ⟨fun a b => lexLe_total a.toList b.toList⟩

instance : IsTrans String strLe := ⟨fun a b c => lexLe_trans a.toList b.toList c.toList⟩

theorem strLe_refl (x : String) : strLe x x :=
  lexLe_refl x.toList

theorem sortedStr_perm (l : List String) : List.Perm (sortedStr l) l :=
  List.perm_insertionSort strLe l

theorem sortedStr_sorted (l : List String) : List.Sorted strLe (sortedStr l) :=
  List.sorted_insertionSort strLe l

theorem sorted_head_min {x : String} {xs : List String}
    (h : List.Sorted strLe (x :: xs)) : ∀ m ∈ x :: xs, strLe x m := by
  intro m hm
  rcases List.mem_cons.mp hm with rfl | hm'
  · exact strLe_refl m
  · exact List.rel_of_sorted_cons h m hm'

/-! ## Basic index lemmas -/

theorem indexLookup_indexInsert_self (idx : Index) (u : String) (v : Option Nat) :
    indexLookup (indexInsert idx u v) u = some v := by
  induction idx with
  | nil => simp [indexInsert, indexLookup]
  | cons h t ih =>
      by_cases hk : h.1 = u
      · simp [indexInsert, indexLookup, hk]
      · simp [indexInsert, indexLookup, hk, ih]

theorem indexLookup_indexInsert_other (idx : Index) (u w : String) (v : Option Nat)
    (hw : w ≠ u) : indexLookup (indexInsert idx u v) w = indexLookup idx w := by
  induction idx with
  | nil => simp [indexInsert, indexLookup, Ne.symm hw]
  | cons hd t ih =>
      by_cases hk : hd.1 = u
      · rw [indexInsert, if_pos hk]
        rw [show ((hd.1, v) :: t : Index) = (hd.1, v) :: t from rfl]
        simp only [indexLookup]
        rw [hk]
        simp [Ne.symm hw, indexLookup]
      · rw [indexInsert, if_neg hk]
        simp only [indexLookup, ih]

theorem indexInsert_fresh (idx : Index) (u : String) (v : Option Nat)
    (h : containsKey idx u = false) : indexInsert idx u v = idx ++ [(u, v)] := by
  induction idx with
  | nil => simp [indexInsert]
  | cons hd t ih =>
      simp only [containsKey, indexLookup] at h
      by_cases hk : hd.1 = u
      · rw [if_pos hk] at h
        simp at h
      · rw [if_neg hk] at h
        rw [indexInsert, if_neg hk, List.cons_append]
        exact congrArg _ (ih h)

theorem mem_urlsToFetch (idx : Index) (urls : List String) (u : String) :
    u ∈ urlsToFetch idx urls ↔ u ∈ urls ∧ containsKey idx u = false := by
  simp [urlsToFetch, List.mem_filter]

theorem containsKey_indexInsert (idx : Index) (u w : String) (v : Option Nat) :
    containsKey (indexInsert idx u v) w = (containsKey idx w || decide (w = u)) := by
  by_cases hw : w = u
  · subst hw
    simp [containsKey, indexLookup_indexInsert_self]
  · simp [containsKey, indexLookup_indexInsert_other idx u w v hw, hw]

theorem slots_append_some (idx : Index) (u : String) (n : Nat) :
    slots (idx ++ [(u, some n)]) = slots idx ++ [n] := by
  simp [slots]

theorem slots_append_none (idx : Index) (u : String) :
    slots (idx ++ [(u, none)]) = slots idx := by
  simp [slots]

theorem containsKey_eq_mem (idx : Index) (u : String) :
    containsKey idx u = true ↔ u ∈ idx.map Prod.fst := by
  induction idx with
  | nil => simp [containsKey, indexLookup]
  | cons hd t ih =>
      by_cases hk : hd.1 = u
      · simp [containsKey, indexLookup, hk]
      · rw [show containsKey (hd :: t) u = containsKey t u from by
          simp [containsKey, indexLookup, hk]]
        rw [List.map_cons, List.mem_cons, ih]
        constructor
        · intro h
          exact Or.inr h
        · rintro (h | h)
          · exact absurd h.symm hk
          · exact h

theorem countP_eq_one_of_nodup (b : String) : ∀ (t : List String), t.Nodup → b ∈ t →
    t.countP (fun y => decide (y = b)) = 1 := by
  intro t
  induction t with
  | nil => simp
  | cons h tl ih =>
      intro hnd hb
      rw [List.countP_cons]
      rcases List.mem_cons.mp hb with rfl | hbt
      · have h0 : tl.countP (fun y => decide (y = b)) = 0 :=
          List.countP_eq_zero.mpr fun y hy => by
            simp only [decide_eq_true_eq]
            exact fun hyb => (List.nodup_cons.mp hnd).1 (hyb ▸ hy)
        simp [h0]
      · have h1 := ih (List.nodup_cons.mp hnd).2 hbt
        have hh : h ≠ b := fun hh => (List.nodup_cons.mp hnd).1 (hh ▸ hbt)
        simp [h1, hh]

/-! ## The crawler run: master invariant -/

/-- Invariants of draining the completion queue from state `s`, given that
every completed URL is outstanding (not yet a key), URLs are pairwise
distinct and no worker reports ALREADY_CRAWLED: the returned count grows by
the number of successes; denseness of slot values is preserved; the final
key set is the initial one plus the completed URLs; entries of other URLs
are untouched; every completed URL ends with exactly the disposition its
result dictates; and key uniqueness is preserved. -/
theorem runList_master : ∀ (completions : List (String × CrawlResult)) (s : CrawlState),
    (∀ p ∈ completions, containsKey s.index p.1 = false) →
    (completions.map Prod.fst).Nodup →
    (∀ p ∈ completions, p.2 ≠ CrawlResult.alreadyCrawled) →
    ((runList s completions).count
        = s.count + completions.countP (fun p => isSuccess p.2)) ∧
    (List.Perm (slots s.index) (List.range s.count) →
      List.Perm (slots (runList s completions).index)
        (List.range (runList s completions).count)) ∧
    (∀ w, containsKey (runList s completions).index w
        = (containsKey s.index w || decide (w ∈ completions.map Prod.fst))) ∧
    (∀ w, w ∉ completions.map Prod.fst →
      indexLookup (runList s completions).index w = indexLookup s.index w) ∧
    (∀ p ∈ completions,
      (∀ c, p.2 = CrawlResult.success c →
        ∃ n, indexLookup (runList s completions).index p.1 = some (some n)) ∧
      (p.2 = CrawlResult.fail →
        indexLookup (runList s completions).index p.1 = some none)) ∧
    ((s.index.map Prod.fst).Nodup → ((runList s completions).index.map Prod.fst).Nodup) := by
  intro completions
  induction completions with
  | nil =>
      intro s _ _ _
      refine ⟨by simp [runList], fun h => by simpa [runList] using h, ?_, ?_, by simp, ?_⟩
      · intro w
        simp [runList]
      · intro w _
        simp [runList]
      · intro h
        simpa [runList] using h
  | cons p rest ih =>
      obtain ⟨u, r⟩ := p
      intro s hfresh hnd hnc
      have hufresh : containsKey s.index u = false :=
        hfresh (u, r) (List.mem_cons_self _ _)
      have hunotmem : u ∉ s.index.map Prod.fst := by
        intro hmem
        rw [← containsKey_eq_mem] at hmem
        rw [hufresh] at hmem
        exact Bool.false_ne_true hmem
      rw [List.map_cons] at hnd
      have hndu : u ∉ rest.map Prod.fst := (List.nodup_cons.mp hnd).1
      have hndr : (rest.map Prod.fst).Nodup := (List.nodup_cons.mp hnd).2
      have hncr : ∀ q ∈ rest, q.2 ≠ CrawlResult.alreadyCrawled :=
        fun q hq => hnc q (List.mem_cons_of_mem _ hq)
      cases r with
      | alreadyCrawled =>
          exact absurd rfl (hnc (u, CrawlResult.alreadyCrawled) (List.mem_cons_self _ _))
      | success c =>
          set s' := processResult s u (CrawlResult.success c) with hs'
          have hidx : s'.index = s.index ++ [(u, some s.count)] := by
            rw [hs']
            simp only [processResult]
            exact indexInsert_fresh s.index u (some s.count) hufresh
          have hcount : s'.count = s.count + 1 := rfl
          have hck : ∀ w, containsKey s'.index w
              = (containsKey s.index w || decide (w = u)) := by
            intro w
            rw [hs']
            simp only [processResult]
            exact containsKey_indexInsert s.index u w (some s.count)
          have hfr : ∀ q ∈ rest, containsKey s'.index q.1 = false := by
            intro q hq
            rw [hck q.1]
            have h1 : containsKey s.index q.1 = false :=
              hfresh q (List.mem_cons_of_mem _ hq)
            have h2 : q.1 ≠ u := by
              intro he
              exact hndu (he ▸ List.mem_map_of_mem Prod.fst hq)
            simp [h1, h2]
          obtain ⟨ihc, ihd, ihk, ihu, ihp, ihn⟩ := ih s' hfr hndr hncr
          have hrun : runList s ((u, CrawlResult.success c) :: rest) = runList s' rest := rfl
          refine ⟨?_, ?_, ?_, ?_, ?_, ?_⟩
          · rw [hrun, ihc, hcount]
            simp [List.countP_cons, isSuccess]
            omega
          · intro hdense
            rw [hrun]
            apply ihd
            rw [hidx, hcount, slots_append_some, List.range_succ]
            exact hdense.append (List.Perm.refl _)
          · intro w
            rw [hrun, ihk w, hck w]
            by_cases h1 : w = u <;> by_cases h2 : w ∈ rest.map Prod.fst <;>
              simp [h1, h2]
          · intro w hw
            have hw1 : w ≠ u := by
              intro he
              exact hw (he ▸ List.mem_cons_self _ _)
            have hw2 : w ∉ rest.map Prod.fst := by
              intro he
              exact hw (List.mem_cons_of_mem _ (by simpa using he))
            rw [hrun, ihu w (by simpa using hw2), hs']
            simp only [processResult]
            exact indexLookup_indexInsert_other s.index u w (some s.count) hw1
          · intro q hq
            rcases List.mem_cons.mp hq with rfl | hq'
            · constructor
              · intro c' _
                refine ⟨s.count, ?_⟩
                rw [hrun, ihu u (by simpa using hndu), hs']
                simp only [processResult]
                exact indexLookup_indexInsert_self s.index u (some s.count)
              · intro hfail
                exact absurd hfail (by simp)
            · exact ihp q hq'
          · intro hkeys
            rw [hrun]
            apply ihn
            rw [hidx]
            rw [List.map_append]
            refine List.Nodup.append hkeys (by simp) ?_
            intro a ha hb
            simp at hb
            exact hunotmem (hb ▸ ha)
      | fail =>
          set s' := processResult s u CrawlResult.fail with hs'
          have hidx : s'.index = s.index ++ [(u, none)] := by
            rw [hs']
            simp only [processResult]
            exact indexInsert_fresh s.index u none hufresh
          have hcount : s'.count = s.count := rfl
          have hck : ∀ w, containsKey s'.index w
              = (containsKey s.index w || decide (w = u)) := by
            intro w
            rw [hs']
            simp only [processResult]
            exact containsKey_indexInsert s.index u w none
          have hfr : ∀ q ∈ rest, containsKey s'.index q.1 = false := by
            intro q hq
            rw [hck q.1]
            have h1 : containsKey s.index q.1 = false :=
              hfresh q (List.mem_cons_of_mem _ hq)
            have h2 : q.1 ≠ u := by
              intro he
              exact hndu (he ▸ List.mem_map_of_mem Prod.fst hq)
            simp [h1, h2]
          obtain ⟨ihc, ihd, ihk, ihu, ihp, ihn⟩ := ih s' hfr hndr hncr
          have hrun : runList s ((u, CrawlResult.fail) :: rest) = runList s' rest := rfl
          refine ⟨?_, ?_, ?_, ?_, ?_, ?_⟩
          · rw [hrun, ihc, hcount]
            simp [List.countP_cons, isSuccess]
          · intro hdense
            rw [hrun]
            apply ihd
            rw [hidx, hcount, slots_append_none]
            exact hdense
          · intro w
            rw [hrun, ihk w, hck w]
            by_cases h1 : w = u <;> by_cases h2 : w ∈ rest.map Prod.fst <;>
              simp [h1, h2]
          · intro w hw
            have hw1 : w ≠ u := by
              intro he
              exact hw (he ▸ List.mem_cons_self _ _)
            have hw2 : w ∉ rest.map Prod.fst := by
              intro he
              exact hw (List.mem_cons_of_mem _ (by simpa using he))
            rw [hrun, ihu w (by simpa using hw2), hs']
            simp only [processResult]
            exact indexLookup_indexInsert_other s.index u w none hw1
          · intro q hq
            rcases List.mem_cons.mp hq with rfl | hq'
            · constructor
              · intro c' hc'
                exact absurd hc' (by simp)
              · intro _
                rw [hrun, ihu u (by simpa using hndu), hs']
                simp only [processResult]
                exact indexLookup_indexInsert_self s.index u none
            · exact ihp q hq'
          · intro hkeys
            rw [hrun]
            apply ihn
            rw [hidx]
            rw [List.map_append]
            refine List.Nodup.append hkeys (by simp) ?_
            intro a ha hb
            simp at hb
            exact hunotmem (hb ▸ ha)

/-! ## Claims C1, C2, C3: the crawler run -/

/-- Claim C1: for every run over distinct candidate URLs (any completion
order, no ALREADY_CRAWLED results), if the loaded index satisfies the dense
slot invariant then after the run the multiset of slot values in the index is
exactly 0, 1, ..., k-1 with k the returned total count, and k equals the
prior successes plus the successes of this run. -/
theorem crawl_dense_slots (index0 : Index) (urls : List String)
    (completions : List (String × CrawlResult))
    (hnodup : urls.Nodup)
    (hrun : ValidRun index0 urls completions)
    (hdense : List.Perm (slots index0) (List.range (countNonNull index0))) :
    List.Perm (slots (download_with_record index0 completions).1.index)
      (List.range (download_with_record index0 completions).2) ∧
    (download_with_record index0 completions).2
      = countNonNull index0 + completions.countP (fun p => isSuccess p.2) := by
  obtain ⟨hperm, hnc⟩ := hrun
  have hfresh : ∀ p ∈ completions, containsKey (initState index0).index p.1 = false := by
    intro p hp
    have h1 : p.1 ∈ urlsToFetch index0 urls :=
      hperm.mem_iff.mp (List.mem_map_of_mem Prod.fst hp)
    exact ((mem_urlsToFetch index0 urls p.1).mp h1).2
  have hndc : (completions.map Prod.fst).Nodup :=
    hperm.nodup_iff.mpr (hnodup.filter _)
  have M := runList_master completions (initState index0) hfresh hndc hnc
  simp only [download_with_record]
  exact ⟨M.2.1 hdense, M.1⟩

/-- Claim C1 (witness): a concrete resumed run, completions arriving out of
submission order. -/
theorem crawl_dense_slots_witness :
    (["u0", "a", "b"] : List String).Nodup ∧
    ValidRun [("u0", some 0), ("uf", none)] ["u0", "a", "b"]
      [("b", CrawlResult.success "x"), ("a", CrawlResult.fail)] ∧
    List.Perm (slots [("u0", some 0), ("uf", none)])
      (List.range (countNonNull [("u0", some 0), ("uf", none)])) ∧
    (List.Perm (slots (download_with_record [("u0", some 0), ("uf", none)]
        [("b", CrawlResult.success "x"), ("a", CrawlResult.fail)]).1.index)
      (List.range (download_with_record [("u0", some 0), ("uf", none)]
        [("b", CrawlResult.success "x"), ("a", CrawlResult.fail)]).2) ∧
    (download_with_record [("u0", some 0), ("uf", none)]
        [("b", CrawlResult.success "x"), ("a", CrawlResult.fail)]).2
      = countNonNull [("u0", some 0), ("uf", none)]
        + [("b", CrawlResult.success "x"), ("a", CrawlResult.fail)].countP
            (fun p => isSuccess p.2)) :=
  ⟨by decide, ⟨by decide, by decide⟩, by decide,
    crawl_dense_slots [("u0", some 0), ("uf", none)] ["u0", "a", "b"]
      [("b", CrawlResult.success "x"), ("a", CrawlResult.fail)]
      (by decide) ⟨by decide, by decide⟩ (by decide)⟩

/-- Claim C2: resuming is idempotent.  Every URL already keyed in the loaded
index (slot or failure sentinel alike) is excluded from the outstanding set;
after a run over distinct candidates every candidate is keyed, so a second
run on the same list has an empty outstanding set, fetches nothing, writes no
file, and returns the same index and count. -/
theorem crawl_idempotent_resume (index0 : Index) (urls : List String)
    (completions : List (String × CrawlResult))
    (hnodup : urls.Nodup)
    (hrun : ValidRun index0 urls completions)
    (hdense : List.Perm (slots index0) (List.range (countNonNull index0))) :
    (∀ u, containsKey index0 u = true → u ∉ urlsToFetch index0 urls) ∧
    urlsToFetch (download_with_record index0 completions).1.index urls = [] ∧
    ∀ completions2,
      ValidRun (download_with_record index0 completions).1.index urls completions2 →
        completions2 = [] ∧
        (download_with_record (download_with_record index0 completions).1.index
            completions2).1.index = (download_with_record index0 completions).1.index ∧
        (download_with_record (download_with_record index0 completions).1.index
            completions2).2 = (download_with_record index0 completions).2 ∧
        (download_with_record (download_with_record index0 completions).1.index
            completions2).1.files = [] := by
  obtain ⟨hperm, hnc⟩ := hrun
  have hfresh : ∀ p ∈ completions, containsKey (initState index0).index p.1 = false := by
    intro p hp
    have h1 : p.1 ∈ urlsToFetch index0 urls :=
      hperm.mem_iff.mp (List.mem_map_of_mem Prod.fst hp)
    exact ((mem_urlsToFetch index0 urls p.1).mp h1).2
  have hndc : (completions.map Prod.fst).Nodup :=
    hperm.nodup_iff.mpr (hnodup.filter _)
  have M := runList_master completions (initState index0) hfresh hndc hnc
  have hempty : urlsToFetch (runList (initState index0) completions).index urls = [] := by
    apply List.filter_eq_nil_iff.mpr
    intro u hu
    have hck : containsKey (runList (initState index0) completions).index u = true := by
      rw [M.2.2.1 u]
      by_cases h0 : containsKey index0 u = true
      · rw [show containsKey (initState index0).index u = true from h0]
        simp
      · have h1 : containsKey index0 u = false := by
          cases hc : containsKey index0 u
          · rfl
          · exact absurd hc h0
        have h2 : u ∈ urlsToFetch index0 urls :=
          (mem_urlsToFetch index0 urls u).mpr ⟨hu, h1⟩
        have h3 : u ∈ completions.map Prod.fst := hperm.mem_iff.mpr h2
        simp [h3]
    simp [hck]
  have hlen : countNonNull (runList (initState index0) completions).index
      = (runList (initState index0) completions).count := by
    have hp := M.2.1 hdense
    have := hp.length_eq
    rw [List.length_range] at this
    exact this
  simp only [download_with_record]
  refine ⟨?_, hempty, ?_⟩
  · intro u hu hmem
    rw [mem_urlsToFetch] at hmem
    rw [hmem.2] at hu
    exact Bool.false_ne_true hu
  · intro completions2 hrun2
    obtain ⟨hperm2, _⟩ := hrun2
    rw [hempty] at hperm2
    have hmap2 : completions2.map Prod.fst = [] := List.perm_nil.mp hperm2
    have hc2 : completions2 = [] := List.map_eq_nil_iff.mp hmap2
    subst hc2
    exact ⟨rfl, rfl, hlen, rfl⟩

/-- Claim C2 (witness): a second run after the first fetches nothing and
leaves everything unchanged. -/
theorem crawl_idempotent_resume_witness :
    (["u0", "a", "b"] : List String).Nodup ∧
    ValidRun [("u0", some 0), ("uf", none)] ["u0", "a", "b"]
      [("b", CrawlResult.success "x"), ("a", CrawlResult.fail)] ∧
    List.Perm (slots [("u0", some 0), ("uf", none)])
      (List.range (countNonNull [("u0", some 0), ("uf", none)])) ∧
    ((∀ u, containsKey [("u0", some 0), ("uf", none)] u = true →
        u ∉ urlsToFetch [("u0", some 0), ("uf", none)] ["u0", "a", "b"]) ∧
      urlsToFetch (download_with_record [("u0", some 0), ("uf", none)]
          [("b", CrawlResult.success "x"), ("a", CrawlResult.fail)]).1.index
        ["u0", "a", "b"] = [] ∧
      ∀ completions2,
        ValidRun (download_with_record [("u0", some 0), ("uf", none)]
            [("b", CrawlResult.success "x"), ("a", CrawlResult.fail)]).1.index
          ["u0", "a", "b"] completions2 →
          completions2 = [] ∧
          (download_with_record (download_with_record [("u0", some 0), ("uf", none)]
              [("b", CrawlResult.success "x"), ("a", CrawlResult.fail)]).1.index
              completions2).1.index
            = (download_with_record [("u0", some 0), ("uf", none)]
              [("b", CrawlResult.success "x"), ("a", CrawlResult.fail)]).1.index ∧
          (download_with_record (download_with_record [("u0", some 0), ("uf", none)]
              [("b", CrawlResult.success "x"), ("a", CrawlResult.fail)]).1.index
              completions2).2
            = (download_with_record [("u0", some 0), ("uf", none)]
              [("b", CrawlResult.success "x"), ("a", CrawlResult.fail)]).2 ∧
          (download_with_record (download_with_record [("u0", some 0), ("uf", none)]
              [("b", CrawlResult.success "x"), ("a", CrawlResult.fail)]).1.index
              completions2).1.files = []) :=
  ⟨by decide, ⟨by decide, by decide⟩, by decide,
    crawl_idempotent_resume [("u0", some 0), ("uf", none)] ["u0", "a", "b"]
      [("b", CrawlResult.success "x"), ("a", CrawlResult.fail)]
      (by decide) ⟨by decide, by decide⟩ (by decide)⟩

/-- Claim C3: after a run over distinct candidates with well-formed loaded
index, every completed URL has exactly one entry in the index — a slot on
SUCCESS, the failure sentinel on FAIL (which also covers a worker exception,
converted to FAIL at the boundary) — and the returned value is the prior
success count plus this run's successes. -/
theorem crawl_one_disposition_per_url (index0 : Index) (urls : List String)
    (completions : List (String × CrawlResult))
    (hnodup : urls.Nodup)
    (hrun : ValidRun index0 urls completions)
    (hkeys : (index0.map Prod.fst).Nodup) :
    (∀ p ∈ completions,
      ((download_with_record index0 completions).1.index.countP
          (fun q => decide (q.1 = p.1)) = 1) ∧
      (∀ c, p.2 = CrawlResult.success c →
        ∃ n, indexLookup (download_with_record index0 completions).1.index p.1
          = some (some n)) ∧
      (p.2 = CrawlResult.fail →
        indexLookup (download_with_record index0 completions).1.index p.1 = some none)) ∧
    (download_with_record index0 completions).2
      = countNonNull index0 + completions.countP (fun p => isSuccess p.2) := by
  obtain ⟨hperm, hnc⟩ := hrun
  have hfresh : ∀ p ∈ completions, containsKey (initState index0).index p.1 = false := by
    intro p hp
    have h1 : p.1 ∈ urlsToFetch index0 urls :=
      hperm.mem_iff.mp (List.mem_map_of_mem Prod.fst hp)
    exact ((mem_urlsToFetch index0 urls p.1).mp h1).2
  have hndc : (completions.map Prod.fst).Nodup :=
    hperm.nodup_iff.mpr (hnodup.filter _)
  have M := runList_master completions (initState index0) hfresh hndc hnc
  have hndfin : ((runList (initState index0) completions).index.map Prod.fst).Nodup :=
    M.2.2.2.2.2 hkeys
  simp only [download_with_record]
  refine ⟨?_, M.1⟩
  intro p hp
  refine ⟨?_, (M.2.2.2.2.1 p hp).1, (M.2.2.2.2.1 p hp).2⟩
  have hckp : containsKey (runList (initState index0) completions).index p.1 = true := by
    rw [M.2.2.1 p.1]
    have h3 : p.1 ∈ completions.map Prod.fst := List.mem_map_of_mem Prod.fst hp
    simp [h3]
  have hmem : p.1 ∈ (runList (initState index0) completions).index.map Prod.fst :=
    (containsKey_eq_mem _ p.1).mp hckp
  have h1 := countP_eq_one_of_nodup p.1
    ((runList (initState index0) completions).index.map Prod.fst) hndfin hmem
  rw [List.countP_map] at h1
  exact h1

/-- Claim C3 (witness): a run with one success, one failure and one prior
entry records exactly one disposition for each completed URL and returns the
prior count plus one. -/
theorem crawl_one_disposition_per_url_witness :
    (["u0", "a", "b"] : List String).Nodup ∧
    ValidRun [("u0", some 0), ("uf", none)] ["u0", "a", "b"]
      [("b", CrawlResult.success "x"), ("a", CrawlResult.fail)] ∧
    (([("u0", some 0), ("uf", none)] : Index).map Prod.fst).Nodup ∧
    ((∀ p ∈ [("b", CrawlResult.success "x"), ("a", CrawlResult.fail)],
      ((download_with_record [("u0", some 0), ("uf", none)]
          [("b", CrawlResult.success "x"), ("a", CrawlResult.fail)]).1.index.countP
          (fun q => decide (q.1 = p.1)) = 1) ∧
      (∀ c, p.2 = CrawlResult.success c →
        ∃ n, indexLookup (download_with_record [("u0", some 0), ("uf", none)]
          [("b", CrawlResult.success "x"), ("a", CrawlResult.fail)]).1.index p.1
          = some (some n)) ∧
      (p.2 = CrawlResult.fail →
        indexLookup (download_with_record [("u0", some 0), ("uf", none)]
          [("b", CrawlResult.success "x"), ("a", CrawlResult.fail)]).1.index p.1
          = some none)) ∧
    (download_with_record [("u0", some 0), ("uf", none)]
        [("b", CrawlResult.success "x"), ("a", CrawlResult.fail)]).2
      = countNonNull [("u0", some 0), ("uf", none)]
        + [("b", CrawlResult.success "x"), ("a", CrawlResult.fail)].countP
            (fun p => isSuccess p.2)) :=
  ⟨by decide, ⟨by decide, by decide⟩, by decide,
    crawl_one_disposition_per_url [("u0", some 0), ("uf", none)] ["u0", "a", "b"]
      [("b", CrawlResult.success "x"), ("a", CrawlResult.fail)]
      (by decide) ⟨by decide, by decide⟩ (by decide)⟩

/-! ## Claim C4: duplicate recording -/

/-- Claim C4 (counterexample): the success-recording step performs no
duplicate check.  With the URL `u` already resolved to slot 0 and the counter
at 1, processing a SUCCESS for `u` overwrites the existing entry with slot 1
and advances the counter — it does not fail. -/
theorem record_success_duplicate_overwrites_cex :
    containsKey [("u", some 0)] "u" = true ∧
    (processResult ⟨[("u", some 0)], 1, [], ""⟩ "u" (CrawlResult.success "body")).index
      = [("u", some 1)] ∧
    (processResult ⟨[("u", some 0)], 1, [], ""⟩ "u" (CrawlResult.success "body")).count = 2 := by
  decide

/-- Claim C4 (amended): recording a success for an already-resolved URL does
not raise an error: it overwrites that URL's entry with the next slot and
advances the counter.  The contract is instead maintained upstream: a URL
already present as a key in the loaded index is never in the outstanding work
set, so within `download_with_record` the recording step is never invoked for
an already-resolved URL. -/
theorem record_success_no_duplicate_check
    (idx : Index) (n : Nat) (fs : List (Nat × String)) (ps : String)
    (u c : String) (h : containsKey idx u = true) :
    indexLookup (processResult ⟨idx, n, fs, ps⟩ u (CrawlResult.success c)).index u
      = some (some n) ∧
    (processResult ⟨idx, n, fs, ps⟩ u (CrawlResult.success c)).count = n + 1 ∧
    ∀ urls : List String, u ∉ urlsToFetch idx urls := by
  refine ⟨?_, rfl, ?_⟩
  · simpa [processResult] using indexLookup_indexInsert_self idx u (some n)
  · intro urls hu
    rw [mem_urlsToFetch] at hu
    rw [hu.2] at h
    exact Bool.false_ne_true h

/-- Claim C4 (witness for the amended theorem). -/
theorem record_success_no_duplicate_check_witness :
    containsKey [("u", some 0)] "u" = true ∧
    (indexLookup (processResult ⟨[("u", some 0)], 1, [], ""⟩ "u"
        (CrawlResult.success "b")).index "u" = some (some 1) ∧
      (processResult ⟨[("u", some 0)], 1, [], ""⟩ "u" (CrawlResult.success "b")).count = 1 + 1 ∧
      ∀ urls : List String, "u" ∉ urlsToFetch [("u", some 0)] urls) :=
  ⟨by decide, record_success_no_duplicate_check [("u", some 0)] 1 [] "" "u" "b" (by decide)⟩

/-! ## Claim C5: persistence and crash visibility -/

/-- Claim C5 (counterexample): the dump truncates the index file in place, so
stopping between the truncation and the write exposes an empty file — content
that is neither the previously persisted index nor the new one, hence not a
load-consistent index state. -/
theorem persist_in_place_truncation_cex :
    "" ∈ persistCrashStates (serializeIndex [("u", some 0)]) [("u", some 0), ("v", none)] ∧
    "" ≠ serializeIndex [("u", some 0)] ∧
    "" ≠ serializeIndex [("u", some 0), ("v", none)] := by
  decide

theorem runList_persisted (completions : List (String × CrawlResult)) :
    ∀ s : CrawlState, s.persisted = serializeIndex s.index →
      (runList s completions).persisted = serializeIndex (runList s completions).index := by
  induction completions with
  | nil => intro s h; simpa [runList] using h
  | cons p rest ih =>
      intro s h
      obtain ⟨u, r⟩ := p
      cases r with
      | success c => exact ih _ rfl
      | alreadyCrawled => exact ih _ h
      | fail => exact ih _ rfl

/-- Claim C5 (amended): the index is dumped after every mutation, so stopping
the run after any completed prefix of the completions leaves the persisted
file holding exactly the serialization of the index as mutated by that
prefix; but within a single dump the write is an in-place truncate-and-
rewrite, so a crash inside a dump can expose partial (empty) content. -/
theorem persist_after_every_mutation (index0 : Index)
    (pre : List (String × CrawlResult)) :
    (runList (initState index0) pre).persisted
      = serializeIndex (runList (initState index0) pre).index :=
  runList_persisted pre _ rfl

/-! ## Cluster lemmas and Claim C8 -/

theorem rootsAdd_snd_ne_nil (roots : List (String × List String)) (r v : String)
    (h : ∀ q ∈ roots, q.2 ≠ []) : ∀ q ∈ rootsAdd roots r v, q.2 ≠ [] := by
  induction roots with
  | nil =>
      intro q hq
      simp only [rootsAdd, List.mem_singleton] at hq
      subst hq
      simp
  | cons hd t ih =>
      obtain ⟨k, vs⟩ := hd
      intro q hq
      by_cases hk : k = r
      · rw [rootsAdd, if_pos hk] at hq
        rcases List.mem_cons.mp hq with rfl | hq'
        · simp
        · exact h q (List.mem_cons_of_mem _ hq')
      · rw [rootsAdd, if_neg hk] at hq
        rcases List.mem_cons.mp hq with rfl | hq'
        · exact h _ (List.mem_cons_self _ _)
        · exact ih (fun q' hq' => h q' (List.mem_cons_of_mem _ hq')) q hq'

theorem collectRootsGo_snd_ne_nil (paths : List String) :
    ∀ (acc : List (String × List String)) (p : Parent),
      (∀ q ∈ acc, q.2 ≠ []) →
      ∀ q ∈ collectRootsGo acc p paths, q.2 ≠ [] := by
  induction paths with
  | nil =>
      intro acc p h q hq
      exact h q hq
  | cons path rest ih =>
      intro acc p h q hq
      exact ih _ _ (rootsAdd_snd_ne_nil acc _ _ h) q hq

theorem collectRoots_snd_ne_nil (parent : Parent) :
    ∀ q ∈ collectRoots parent, q.2 ≠ [] :=
  collectRootsGo_snd_ne_nil _ [] parent (by intro q hq; simp at hq)

/-- Claim C8: every cluster produced by `build_clusters` has its
representative equal to the lexicographically smallest member path: the
representative is a member and is at or below every member in the code-point
order Python `sorted` uses.  (`build_clusters` is a pure function, so the
representative is the same on every rerun over the same input.) -/
theorem cluster_representative_minimal (pairs : List Pair)
    (ptu : List (String × List String)) (c : Cluster)
    (hc : c ∈ build_clusters pairs ptu) :
    c.representative ∈ c.members ∧ ∀ m ∈ c.members, strLe c.representative m := by
  simp only [build_clusters] at hc
  obtain ⟨rm, hrm, rfl⟩ := List.mem_map.mp hc
  have hne : rm.2 ≠ [] := collectRoots_snd_ne_nil _ rm hrm
  have hsne : sortedStr rm.2 ≠ [] := by
    intro h0
    have hp := sortedStr_perm rm.2
    rw [h0] at hp
    exact hne (List.perm_nil.mp hp.symm)
  obtain ⟨x, xs, hx⟩ := List.exists_cons_of_ne_nil hsne
  have hs := sortedStr_sorted rm.2
  rw [hx] at hs
  constructor
  · show (sortedStr rm.2).headD "" ∈ sortedStr rm.2
    rw [hx]
    exact List.mem_cons_self _ _
  · intro m hm
    show strLe ((sortedStr rm.2).headD "") m
    rw [hx] at hm ⊢
    exact sorted_head_min hs m hm

/-- Claim C8 (witness): from retained pairs b.js-a.js and a.js-c.js the
builder emits the cluster with members a.js, b.js, c.js and representative
a.js, the smallest path. -/
theorem cluster_representative_minimal_witness :
    (⟨"a.js", ["a.js", "b.js", "c.js"], []⟩ : Cluster) ∈
      build_clusters [⟨"b.js", "a.js", 95, [], []⟩, ⟨"a.js", "c.js", 95, [], []⟩] [] ∧
    ((⟨"a.js", ["a.js", "b.js", "c.js"], []⟩ : Cluster).representative ∈
        (⟨"a.js", ["a.js", "b.js", "c.js"], []⟩ : Cluster).members ∧
      ∀ m ∈ (⟨"a.js", ["a.js", "b.js", "c.js"], []⟩ : Cluster).members,
        strLe (⟨"a.js", ["a.js", "b.js", "c.js"], []⟩ : Cluster).representative m) :=
  ⟨by decide, cluster_representative_minimal
    [⟨"b.js", "a.js", 95, [], []⟩, ⟨"a.js", "c.js", 95, [], []⟩] []
    ⟨"a.js", ["a.js", "b.js", "c.js"], []⟩ (by decide)⟩

/-! ## Claim C7: all-pairs comparison -/

theorem combos_mem {α : Type} : ∀ (l : List α) (x y : α),
    (x, y) ∈ combos l → x ∈ l ∧ y ∈ l := by
  intro l
  induction l with
  | nil => simp [combos]
  | cons h t ih =>
      intro x y hm
      rw [combos] at hm
      rcases List.mem_append.mp hm with hm | hm
      · obtain ⟨y', hy', heq⟩ := List.mem_map.mp hm
        obtain ⟨rfl, rfl⟩ := Prod.mk.injEq _ _ _ _ ▸ heq
        exact ⟨List.mem_cons_self _ _, List.mem_cons_of_mem _ hy'⟩
      · obtain ⟨hx, hy⟩ := ih x y hm
        exact ⟨List.mem_cons_of_mem _ hx, List.mem_cons_of_mem _ hy⟩

theorem combos_ne {α : Type} : ∀ (l : List α), l.Nodup → ∀ x y : α,
    (x, y) ∈ combos l → x ≠ y := by
  intro l
  induction l with
  | nil => simp [combos]
  | cons h t ih =>
      intro hnd x y hm
      rcases List.mem_append.mp hm with hm | hm
      · obtain ⟨y', hy', heq⟩ := List.mem_map.mp hm
        obtain ⟨rfl, rfl⟩ := Prod.mk.injEq _ _ _ _ ▸ heq
        intro hxy
        exact (List.nodup_cons.mp hnd).1 (hxy ▸ hy')
      · exact ih (List.nodup_cons.mp hnd).2 x y hm

theorem combos_count_unordered (a b : String) (hab : a ≠ b) :
    ∀ (l : List String), l.Nodup → a ∈ l → b ∈ l →
      (combos l).countP (fun xy => decide (xy = (a, b) ∨ xy = (b, a))) = 1 := by
  intro l
  induction l with
  | nil => simp
  | cons h t ih =>
      intro hnd ha hb
      rw [combos, List.countP_append, List.countP_map]
      obtain ⟨hht, hndt⟩ := List.nodup_cons.mp hnd
      rcases List.mem_cons.mp ha with rfl | hat
      · have hbt : b ∈ t := (List.mem_cons.mp hb).resolve_left fun hh => hab hh.symm
        have hmap : t.countP
            ((fun xy => decide (xy = (a, b) ∨ xy = (b, a))) ∘ (fun y => (a, y)))
              = 1 := by
          rw [show ((fun xy => decide (xy = (a, b) ∨ xy = (b, a))) ∘ (fun y => (a, y)))
              = (fun y => decide (y = b)) from ?_]
          · exact countP_eq_one_of_nodup b t hndt hbt
          · funext y
            simp only [Function.comp_apply, Prod.mk.injEq]
            refine decide_eq_decide.mpr ?_
            constructor
            · rintro (⟨_, h2⟩ | ⟨h1, _⟩)
              · exact h2
              · exact absurd h1 hab
            · intro h1
              exact Or.inl ⟨by trivial, h1⟩
        have hrest : (combos t).countP (fun xy => decide (xy = (a, b) ∨ xy = (b, a))) = 0 :=
          List.countP_eq_zero.mpr fun xy hxy => by
            obtain ⟨hx, hy⟩ := combos_mem t xy.1 xy.2 hxy
            simp only [decide_eq_true_eq, Prod.ext_iff]
            rintro (⟨h1, h2⟩ | ⟨h1, h2⟩)
            · exact hht (h1 ▸ hx)
            · exact hht (h2 ▸ hy)
        rw [hmap, hrest]
      · rcases List.mem_cons.mp hb with rfl | hbt
        · have hmap : t.countP
              ((fun xy => decide (xy = (a, b) ∨ xy = (b, a))) ∘ (fun y => (b, y)))
                = 1 := by
            rw [show ((fun xy => decide (xy = (a, b) ∨ xy = (b, a))) ∘ (fun y => (b, y)))
                = (fun y => decide (y = a)) from ?_]
            · exact countP_eq_one_of_nodup a t hndt hat
            · funext y
              simp only [Function.comp_apply, Prod.mk.injEq]
              refine decide_eq_decide.mpr ?_
              constructor
              · rintro (⟨h1, _⟩ | ⟨_, h2⟩)
                · exact absurd h1.symm hab
                · exact h2
              · intro h1
                exact Or.inr ⟨by trivial, h1⟩
          have hrest : (combos t).countP (fun xy => decide (xy = (a, b) ∨ xy = (b, a))) = 0 :=
            List.countP_eq_zero.mpr fun xy hxy => by
              obtain ⟨hx, hy⟩ := combos_mem t xy.1 xy.2 hxy
              simp only [decide_eq_true_eq, Prod.ext_iff]
              rintro (⟨h1, h2⟩ | ⟨h1, h2⟩)
              · exact hht (h2 ▸ hy)
              · exact hht (h1 ▸ hx)
          rw [hmap, hrest]
        · have hmap : t.countP
              ((fun xy => decide (xy = (a, b) ∨ xy = (b, a))) ∘ (fun y => (h, y)))
                = 0 :=
            List.countP_eq_zero.mpr fun y hy => by
              simp only [Function.comp_apply, decide_eq_true_eq, Prod.ext_iff]
              rintro (⟨h1, _⟩ | ⟨h1, _⟩)
              · exact hht (h1 ▸ hat)
              · exact hht (h1 ▸ hbt)
          rw [hmap, ih hndt hat hbt]

theorem countP_filterMap {α β : Type} (f : α → Option β) (p : β → Bool) :
    ∀ l : List α, (l.filterMap f).countP p
      = l.countP (fun a => ((f a).map p).getD false) := by
  intro l
  induction l with
  | nil => rfl
  | cons a l ih =>
      rw [List.filterMap_cons]
      cases hf : f a with
      | none => rw [List.countP_cons, hf]; simp [ih]
      | some b => rw [List.countP_cons, List.countP_cons, hf]; simp [ih, Nat.add_comm]

/-- Claim C7: `compare_hashes` returns exactly the unordered pairs of distinct
hashed paths whose score reaches the threshold.  First conjunct: every emitted
pair is an ordered pair of distinct hashed paths carrying its computed score,
at or above the threshold.  Second conjunct: every unordered pair of distinct
hashed paths appears exactly once when its score reaches the threshold
(inclusive, so a score equal to the threshold is retained) and not at all
otherwise (so a score one below the threshold is dropped). -/
theorem compare_hashes_exact (cmp : String → String → Nat)
    (path_to_hash : List (String × String)) (ptu : List (String × List String))
    (t : Nat)
    (hnd : (path_to_hash.map Prod.fst).Nodup)
    (hsym : ∀ a ∈ path_to_hash.map Prod.fst, ∀ b ∈ path_to_hash.map Prod.fst,
      cmp (alookupD path_to_hash a "") (alookupD path_to_hash b "")
        = cmp (alookupD path_to_hash b "") (alookupD path_to_hash a "")) :
    (∀ pr ∈ compare_hashes cmp path_to_hash ptu t,
        pr.file_a ∈ path_to_hash.map Prod.fst ∧ pr.file_b ∈ path_to_hash.map Prod.fst ∧
        pr.file_a ≠ pr.file_b ∧
        pr.score = cmp (alookupD path_to_hash pr.file_a "") (alookupD path_to_hash pr.file_b "") ∧
        t ≤ pr.score) ∧
    ∀ a ∈ path_to_hash.map Prod.fst, ∀ b ∈ path_to_hash.map Prod.fst, a ≠ b →
      (compare_hashes cmp path_to_hash ptu t).countP
          (fun pr => decide ((pr.file_a, pr.file_b) = (a, b) ∨ (pr.file_a, pr.file_b) = (b, a)))
        = if t ≤ cmp (alookupD path_to_hash a "") (alookupD path_to_hash b "") then 1 else 0 := by
  constructor
  · intro pr hpr
    simp only [compare_hashes] at hpr
    obtain ⟨ab, hab, heq⟩ := List.mem_filterMap.mp hpr
    by_cases ht : t ≤ cmp (alookupD path_to_hash ab.1 "") (alookupD path_to_hash ab.2 "")
    · rw [if_pos ht] at heq
      obtain rfl := Option.some.inj heq
      obtain ⟨ha, hb⟩ := combos_mem _ ab.1 ab.2 (by simpa using hab)
      exact ⟨ha, hb, combos_ne _ hnd ab.1 ab.2 (by simpa using hab), rfl, ht⟩
    · rw [if_neg ht] at heq
      exact absurd heq (by simp)
  · intro a ha b hb hab
    simp only [compare_hashes]
    rw [countP_filterMap]
    by_cases ht : t ≤ cmp (alookupD path_to_hash a "") (alookupD path_to_hash b "")
    · rw [if_pos ht, ← combos_count_unordered a b hab (path_to_hash.map Prod.fst) hnd ha hb]
      apply List.countP_congr
      intro xy hxy
      by_cases hs : t ≤ cmp (alookupD path_to_hash xy.1 "") (alookupD path_to_hash xy.2 "")
      · simp only [if_pos hs]
        show decide ((xy.1, xy.2) = (a, b) ∨ (xy.1, xy.2) = (b, a)) = true ↔
          decide (xy = (a, b) ∨ xy = (b, a)) = true
        rw [Prod.mk.eta]
      · simp only [if_neg hs]
        show false = true ↔ decide (xy = (a, b) ∨ xy = (b, a)) = true
        constructor
        · intro h
          exact absurd h (by simp)
        · intro h
          rcases of_decide_eq_true h with rfl | rfl
          · exact absurd ht hs
          · exact absurd (by rw [hsym b hb a ha]; exact ht) hs
    · rw [if_neg ht]
      apply List.countP_eq_zero.mpr
      intro xy hxy
      by_cases hs : t ≤ cmp (alookupD path_to_hash xy.1 "") (alookupD path_to_hash xy.2 "")
      · simp only [if_pos hs]
        show ¬ (decide ((xy.1, xy.2) = (a, b) ∨ (xy.1, xy.2) = (b, a)) = true)
        rw [Prod.mk.eta]
        intro h
        rcases of_decide_eq_true h with rfl | rfl
        · exact ht hs
        · exact ht (by rw [hsym a ha b hb]; exact hs)
      · simp only [if_neg hs]
        intro h
        exact absurd h (by simp)

/-- Claim C7 (witness): digests x, y, z for a.js, b.js, c.js with scores
x-y = 90, x-z = 89, y-z = 50 at threshold 90: the unordered pair a.js-b.js
(score exactly the threshold) is retained exactly once, and a.js-c.js (one
below) is not retained. -/
theorem compare_hashes_exact_witness :
    (([("a.js", "x"), ("b.js", "y"), ("c.js", "z")] : List (String × String)).map
        Prod.fst).Nodup ∧
    (∀ a ∈ ([("a.js", "x"), ("b.js", "y"), ("c.js", "z")] : List (String × String)).map
        Prod.fst,
      ∀ b ∈ ([("a.js", "x"), ("b.js", "y"), ("c.js", "z")] : List (String × String)).map
        Prod.fst,
      (fun x y => alookupD
          [("xy", 90), ("yx", 90), ("xz", 89), ("zx", 89), ("yz", 50), ("zy", 50)]
          (x ++ y) 0)
        (alookupD [("a.js", "x"), ("b.js", "y"), ("c.js", "z")] a "")
        (alookupD [("a.js", "x"), ("b.js", "y"), ("c.js", "z")] b "")
      = (fun x y => alookupD
          [("xy", 90), ("yx", 90), ("xz", 89), ("zx", 89), ("yz", 50), ("zy", 50)]
          (x ++ y) 0)
        (alookupD [("a.js", "x"), ("b.js", "y"), ("c.js", "z")] b "")
        (alookupD [("a.js", "x"), ("b.js", "y"), ("c.js", "z")] a "")) ∧
    (compare_hashes
        (fun x y => alookupD
          [("xy", 90), ("yx", 90), ("xz", 89), ("zx", 89), ("yz", 50), ("zy", 50)]
          (x ++ y) 0)
        [("a.js", "x"), ("b.js", "y"), ("c.js", "z")] [] 90).countP
      (fun pr => decide ((pr.file_a, pr.file_b) = ("a.js", "b.js") ∨
        (pr.file_a, pr.file_b) = ("b.js", "a.js"))) = 1 ∧
    (compare_hashes
        (fun x y => alookupD
          [("xy", 90), ("yx", 90), ("xz", 89), ("zx", 89), ("yz", 50), ("zy", 50)]
          (x ++ y) 0)
        [("a.js", "x"), ("b.js", "y"), ("c.js", "z")] [] 90).countP
      (fun pr => decide ((pr.file_a, pr.file_b) = ("a.js", "c.js") ∨
        (pr.file_a, pr.file_b) = ("c.js", "a.js"))) = 0 := by
  have h := compare_hashes_exact
    (fun x y => alookupD
      [("xy", 90), ("yx", 90), ("xz", 89), ("zx", 89), ("yz", 50), ("zy", 50)]
      (x ++ y) 0)
    [("a.js", "x"), ("b.js", "y"), ("c.js", "z")] [] 90 (by decide) (by decide)
  refine ⟨by decide, by decide, ?_, ?_⟩
  · rw [h.2 "a.js" (by decide) "b.js" (by decide) (by decide)]
    decide
  · rw [h.2 "a.js" (by decide) "c.js" (by decide) (by decide)]
    decide

/-! ## Claim C6: transitive clustering -/

theorem compare_hashes_three (cmp : String → String → Nat)
    (A B C hA hB hC : String) (ptu : List (String × List String))
    (hAB : A ≠ B) (hAC : A ≠ C) (hBC : B ≠ C)
    (h1 : cmp hA hB = 95) (h2 : cmp hA hC = 40) (h3 : cmp hB hC = 92) :
    compare_hashes cmp [(A, hA), (B, hB), (C, hC)] ptu 90 =
      [⟨A, B, 95, alookupD ptu A [], alookupD ptu B []⟩,
       ⟨B, C, 92, alookupD ptu B [], alookupD ptu C []⟩] := by
  simp [compare_hashes, combos, alookupD, hAB, hAC, hBC, h1, h2, h3]

theorem union_first (A B : String) (hAB : A ≠ B) :
    union [] A B = [(A, B), (B, B)] := by
  simp [union, find, findChase, pset, plookup, hAB, Ne.symm hAB]

theorem union_second (A B C : String) (hAB : A ≠ B) (hAC : A ≠ C) (hBC : B ≠ C) :
    union [(A, B), (B, B)] B C = [(A, B), (B, C), (C, C)] := by
  simp [union, find, findChase, pset, plookup,
    hAB, hAC, hBC, Ne.symm hAB, Ne.symm hAC, Ne.symm hBC]

theorem collectRoots_three (A B C : String)
    (hAB : A ≠ B) (hAC : A ≠ C) (hBC : B ≠ C) :
    collectRoots [(A, B), (B, C), (C, C)] = [(C, [A, B, C])] := by
  simp [collectRoots, collectRootsGo, find, findChase, plookup, pset, rootsAdd,
    hAB, hAC, hBC, Ne.symm hAB, Ne.symm hAC, Ne.symm hBC]

theorem build_clusters_three (A B C : String) (uA uB uB' uC : List String)
    (ptu : List (String × List String))
    (hAB : A ≠ B) (hAC : A ≠ C) (hBC : B ≠ C) :
    build_clusters [⟨A, B, 95, uA, uB⟩, ⟨B, C, 92, uB', uC⟩] ptu =
      [⟨(sortedStr [A, B, C]).headD "", sortedStr [A, B, C],
        dedupKeepFirst ((sortedStr [A, B, C]).foldl
          (fun acc m => acc ++ alookupD ptu m []) [])⟩] := by
  simp only [build_clusters, List.foldl_cons, List.foldl_nil]
  rw [union_first A B hAB, union_second A B C hAB hAC hBC,
    collectRoots_three A B C hAB hAC hBC, List.map_cons, List.map_nil]

/-- Claim C6: for any three hashed files A, B, C with pairwise scores
A-B = 95, B-C = 92, A-C = 40 at threshold 90, the retained pairs are A-B and
B-C, and the cluster builder emits exactly one cluster whose members are
exactly A, B and C: A and C are merged transitively through B although their
own score is below the threshold. -/
theorem clustering_transitive_three (cmp : String → String → Nat)
    (A B C hA hB hC : String) (ptu : List (String × List String))
    (hAB : A ≠ B) (hAC : A ≠ C) (hBC : B ≠ C)
    (h1 : cmp hA hB = 95) (h2 : cmp hA hC = 40) (h3 : cmp hB hC = 92) :
    ∃ c : Cluster,
      build_clusters (compare_hashes cmp [(A, hA), (B, hB), (C, hC)] ptu 90) ptu = [c] ∧
      A ∈ c.members ∧ B ∈ c.members ∧ C ∈ c.members ∧
      List.Perm c.members [A, B, C] := by
  rw [compare_hashes_three cmp A B C hA hB hC ptu hAB hAC hBC h1 h2 h3]
  rw [build_clusters_three A B C _ _ _ _ ptu hAB hAC hBC]
  refine ⟨_, rfl, ?_, ?_, ?_, sortedStr_perm [A, B, C]⟩
  · exact (sortedStr_perm [A, B, C]).mem_iff.mpr (by simp)
  · exact (sortedStr_perm [A, B, C]).mem_iff.mpr (by simp)
  · exact (sortedStr_perm [A, B, C]).mem_iff.mpr (by simp)

/-- Claim C6 (witness): concrete files A.js, B.js, C.js with digests h1, h2,
h3 and the stated scores produce a single three-member cluster. -/
theorem clustering_transitive_three_witness :
    ("A.js" : String) ≠ "B.js" ∧ ("A.js" : String) ≠ "C.js" ∧
    ("B.js" : String) ≠ "C.js" ∧
    (∃ c : Cluster,
      build_clusters (compare_hashes
        (fun x y => alookupD
          [("h1h2", 95), ("h2h1", 95), ("h1h3", 40), ("h3h1", 40),
            ("h2h3", 92), ("h3h2", 92)] (x ++ y) 0)
        [("A.js", "h1"), ("B.js", "h2"), ("C.js", "h3")] [] 90) [] = [c] ∧
      "A.js" ∈ c.members ∧ "B.js" ∈ c.members ∧ "C.js" ∈ c.members ∧
      List.Perm c.members ["A.js", "B.js", "C.js"]) :=
  ⟨by decide, by decide, by decide,
    clustering_transitive_three
      (fun x y => alookupD
        [("h1h2", 95), ("h2h1", 95), ("h1h3", 40), ("h3h1", 40),
          ("h2h3", 92), ("h3h2", 92)] (x ++ y) 0)
      "A.js" "B.js" "C.js" "h1" "h2" "h3" [] (by decide) (by decide) (by decide)
      (by decide) (by decide) (by decide)⟩

/-! ## Claim C9: the deduplicated list -/

theorem mem_foldl_append (l : List Cluster) :
    ∀ (init : List String) (x : String),
      (x ∈ l.foldl (fun acc c => acc ++ c.members) init) ↔
        x ∈ init ∨ ∃ c ∈ l, x ∈ c.members := by
  induction l with
  | nil => simp
  | cons hd t ih =>
      intro init x
      rw [List.foldl_cons, ih]
      simp only [List.mem_append, List.mem_cons]
      constructor
      · rintro ((hx | hx) | ⟨c, hc, hx⟩)
        · exact Or.inl hx
        · exact Or.inr ⟨hd, Or.inl rfl, hx⟩
        · exact Or.inr ⟨c, Or.inr hc, hx⟩
      · rintro (hx | ⟨c, (rfl | hc), hx⟩)
        · exact Or.inl (Or.inl hx)
        · exact Or.inl (Or.inr hx)
        · exact Or.inr ⟨c, hc, hx⟩

/-- Claim C9: for every digest map and cluster list (with the well-formedness
`build_clusters` guarantees — distinct representatives, each a member of its
own cluster — and distinct hashed paths), the deduplicated list contains
exactly one path per cluster (its representative) plus every hashed path
belonging to no cluster, as a sorted list without duplicates. -/
theorem deduplicated_list_characterization
    (path_to_hash : List (String × String)) (clusters : List Cluster)
    (hkeys : (path_to_hash.map Prod.fst).Nodup)
    (hreps : (clusters.map (fun c => c.representative)).Nodup)
    (hrm : ∀ c ∈ clusters, c.representative ∈ c.members) :
    List.Sorted strLe (build_deduplicated_list path_to_hash clusters) ∧
    (build_deduplicated_list path_to_hash clusters).Nodup ∧
    ∀ x, x ∈ build_deduplicated_list path_to_hash clusters ↔
      ((∃ c ∈ clusters, x = c.representative) ∨
        (x ∈ path_to_hash.map Prod.fst ∧ ∀ c ∈ clusters, x ∉ c.members)) := by
  have hmemin : ∀ x : String,
      (x ∈ clusters.foldl (fun acc c => acc ++ c.members) []) ↔
        ∃ c ∈ clusters, x ∈ c.members := by
    intro x
    rw [mem_foldl_append]
    simp
  refine ⟨sortedStr_sorted _, ?_, ?_⟩
  · rw [show build_deduplicated_list path_to_hash clusters =
        sortedStr (clusters.map (fun c => c.representative) ++
          (sortedStr (path_to_hash.map Prod.fst)).filter
            (fun p => !(List.elem p (clusters.foldl (fun acc c => acc ++ c.members) []))))
      from rfl]
    rw [(sortedStr_perm _).nodup_iff]
    refine List.Nodup.append hreps ?_ ?_
    · exact List.Nodup.filter _ ((sortedStr_perm _).nodup_iff.mpr hkeys)
    · intro x hx hxf
      obtain ⟨c, hc, rfl⟩ := List.mem_map.mp hx
      have h1 := (List.mem_filter.mp hxf).2
      rw [Bool.not_eq_eq_eq_not, Bool.not_true, ← Bool.not_eq_true, List.elem_iff] at h1
      exact h1 ((hmemin _).mpr ⟨c, hc, hrm c hc⟩)
  · intro x
    rw [show build_deduplicated_list path_to_hash clusters =
        sortedStr (clusters.map (fun c => c.representative) ++
          (sortedStr (path_to_hash.map Prod.fst)).filter
            (fun p => !(List.elem p (clusters.foldl (fun acc c => acc ++ c.members) []))))
      from rfl]
    rw [(sortedStr_perm _).mem_iff, List.mem_append, List.mem_filter,
      (sortedStr_perm _).mem_iff]
    constructor
    · rintro (hx | ⟨hx, hp⟩)
      · obtain ⟨c, hc, rfl⟩ := List.mem_map.mp hx
        exact Or.inl ⟨c, hc, rfl⟩
      · rw [Bool.not_eq_eq_eq_not, Bool.not_true, ← Bool.not_eq_true, List.elem_iff] at hp
        refine Or.inr ⟨hx, fun c hc hxc => hp ((hmemin _).mpr ⟨c, hc, hxc⟩)⟩
    · rintro (⟨c, hc, rfl⟩ | ⟨hx, hall⟩)
      · exact Or.inl (List.mem_map.mpr ⟨c, hc, rfl⟩)
      · refine Or.inr ⟨hx, ?_⟩
        rw [Bool.not_eq_eq_eq_not, Bool.not_true, ← Bool.not_eq_true, List.elem_iff]
        intro hmem
        obtain ⟨c, hc, hxc⟩ := (hmemin _).mp hmem
        exact hall c hc hxc

/-- Claim C9 (witness): digest map with paths a.js, b.js, d.js and a single
cluster grouping a.js and b.js with representative a.js gives the
deduplicated list with a.js (the representative) and d.js (unclustered). -/
theorem deduplicated_list_characterization_witness :
    ([("a.js", "h1"), ("b.js", "h2"), ("d.js", "h3")].map
        (Prod.fst (α := String) (β := String))).Nodup ∧
    (([⟨"a.js", ["a.js", "b.js"], []⟩] : List Cluster).map
        (fun c => c.representative)).Nodup ∧
    (∀ c ∈ ([⟨"a.js", ["a.js", "b.js"], []⟩] : List Cluster), c.representative ∈ c.members) ∧
    (List.Sorted strLe (build_deduplicated_list [("a.js", "h1"), ("b.js", "h2"), ("d.js", "h3")]
        [⟨"a.js", ["a.js", "b.js"], []⟩]) ∧
      (build_deduplicated_list [("a.js", "h1"), ("b.js", "h2"), ("d.js", "h3")]
        [⟨"a.js", ["a.js", "b.js"], []⟩]).Nodup ∧
      ∀ x, x ∈ build_deduplicated_list [("a.js", "h1"), ("b.js", "h2"), ("d.js", "h3")]
          [⟨"a.js", ["a.js", "b.js"], []⟩] ↔
        ((∃ c ∈ ([⟨"a.js", ["a.js", "b.js"], []⟩] : List Cluster), x = c.representative) ∨
          (x ∈ [("a.js", "h1"), ("b.js", "h2"), ("d.js", "h3")].map Prod.fst ∧
            ∀ c ∈ ([⟨"a.js", ["a.js", "b.js"], []⟩] : List Cluster), x ∉ c.members))) :=
  ⟨by decide, by decide, by decide,
    deduplicated_list_characterization [("a.js", "h1"), ("b.js", "h2"), ("d.js", "h3")]
      [⟨"a.js", ["a.js", "b.js"], []⟩] (by decide) (by decide) (by decide)⟩

/-! ## Claim C10: push-relatedness detection -/

/-- Claim C10 (code bug): a file that registers a push event listener is not
classified push-related.  The content below contains the event-listener
signature and the word push (case-insensitively, as witnessed by the first
two conjuncts on the lowercased content), yet `is_push_related` returns
false: the code lowercases the content and then searches for the mixed-case
needle addEventListener, which can never occur in a lowercased string. -/
theorem is_push_related_misses_event_listener :
    strContains (strLower "self.addEventListener(\"push\", e)") "addeventlistener" = true ∧
    strContains (strLower "self.addEventListener(\"push\", e)") "push" = true ∧
    is_push_related "self.addEventListener(\"push\", e)" = false := by
  decide

end PushProviders
